import Mathlib

/-!
# Verification of the Next.js route-handler navigator core

A shallow embedding of the route discovery and filesystem mutation engine
of `src/extension.ts` (the dominant variant of the route logic), together
with theorems settling the frozen claims about it.

Conventions of the embedding:
* file contents, file names and route paths are `String`s, exactly as in the
  source; line splitting mirrors JavaScript `content.split("\n")`;
* the regular-expression tests of the source are implemented as executable
  character-list matchers; every `\s+` / `\s*` in the source patterns is
  followed by a character that is never whitespace, so greedy maximal-munch
  scanning is equivalent to the backtracking regex semantics;
* the `i` regex flag is embedded by lowercasing both the subject text and the
  literal parts of the pattern (all of which are ASCII);
* the filesystem is a finite tree of named directories and files (for the
  scanner), or a pair of path sets (for the deletion/pruning engine, which
  must speak about ancestors of the routing root).
-/

/-- `HTTP_METHODS` of `extension.ts`: the seven recognized method names,
in source order. -/
def HTTP_METHODS : List String :=
  ["GET", "POST", "PUT", "DELETE", "PATCH", "HEAD", "OPTIONS"]

/-! ## Structural string primitives

JavaScript's `split("\n")`, `trim()`, `startsWith`, `endsWith("/")`,
`includes` and `join("\n")` are embedded as structural functions on the
character list of a `String`, so that every definition evaluates inside the
kernel. -/

/-- Accumulator for `splitLines`; `acc` holds the current line reversed. -/
def splitLinesAux : List Char → List Char → List String
  | [], acc => [String.mk acc.reverse]
  | c :: cs, acc =>
    if c = '\n' then String.mk acc.reverse :: splitLinesAux cs []
    else splitLinesAux cs (c :: acc)

/-- JavaScript `content.split("\n")`. -/
def splitLines (s : String) : List String := splitLinesAux s.data []

/-- JavaScript `lines.join("\n")` / `Array.prototype.join` with `"\n"`. -/
def joinNl : List String → String
  | [] => ""
  | s :: rest => rest.foldl (fun acc l => acc ++ "\n" ++ l) s

/-- JavaScript `String.prototype.trim`. -/
def trimChars (s : String) : List Char :=
  ((s.data.dropWhile Char.isWhitespace).reverse.dropWhile Char.isWhitespace).reverse

/-- Is `p` a contiguous sublist of the second argument? -/
def infixAt : List Char → List Char → Bool
  | p, [] => p.isEmpty
  | p, c :: cs => p.isPrefixOf (c :: cs) || infixAt p cs

/-- JavaScript `s.includes p`, substring containment. -/
def containsStr (s p : String) : Bool := infixAt p.data s.data

/-! ## Character-level matchers for the source's regular expressions -/

/-- Lowercased character list of a string; embeds the `i` regex flag /
`toLowerCase`. -/
def lowerChars (s : String) : List Char := s.data.map Char.toLower

/-- Match a literal pattern `p` at the head of `cs`, returning the rest. -/
def stripLit : List Char → List Char → Option (List Char)
  | [], cs => some cs
  | _ :: _, [] => none
  | p :: ps, c :: cs => if p = c then stripLit ps cs else none

/-- `\s+` (followed in every source pattern by a non-whitespace character):
require at least one whitespace character, then consume all whitespace. -/
def wsPlus : List Char → Option (List Char)
  | c :: cs => if c.isWhitespace then some (cs.dropWhile Char.isWhitespace) else none
  | [] => none

/-- `\s*X` for a non-whitespace character `X`: skip whitespace, require `X`. -/
def wsStarThen (x : Char) (cs : List Char) : Bool :=
  match cs.dropWhile Char.isWhitespace with
  | c :: _ => c = x
  | [] => false

/-- The alternation `((const\s+M\s*=)|(function\s+M\s*\())` of the handler
detection patterns, matched at the head of `cs` (already lowercased),
`m` being the lowercased method name. -/
def constOrFunctionAt (m : List Char) (cs : List Char) : Bool :=
  (match stripLit "const".data cs with
   | some cs1 =>
     match wsPlus cs1 with
     | some cs2 =>
       match stripLit m cs2 with
       | some cs3 => wsStarThen '=' cs3
       | none => false
     | none => false
   | none => false)
  ||
  (match stripLit "function".data cs with
   | some cs1 =>
     match wsPlus cs1 with
     | some cs2 =>
       match stripLit m cs2 with
       | some cs3 => wsStarThen '(' cs3
       | none => false
     | none => false
   | none => false)

/-- The pattern `export\s+(async\s+)?((const\s+M\s*=)|(function\s+M\s*\()` of
`scanRouteHandlerMethods`, `getMethodNameFromCode` and `hasMethodDefinition`,
matched at the head of `cs`. -/
def exportDeclAt (m : List Char) (cs : List Char) : Bool :=
  match stripLit "export".data cs with
  | none => false
  | some cs1 =>
    match wsPlus cs1 with
    | none => false
    | some cs2 =>
      constOrFunctionAt m cs2 ||
      (match stripLit "async".data cs2 with
       | some cs3 =>
         match wsPlus cs3 with
         | some cs4 => constOrFunctionAt m cs4
         | none => false
       | none => false)

/-- Regex search: does the predicate match at some position of the text? -/
def searchTails (f : List Char → Bool) : List Char → Bool
  | [] => f []
  | c :: cs => f (c :: cs) || searchTails f cs

/-- `new RegExp("export\\s+(async\\s+)?((const\\s+M\\s*=)|(function\\s+M\\s*\\())", "i").test s` -/
def exportDeclTest (m : String) (s : String) : Bool :=
  searchTails (exportDeclAt (lowerChars m)) (lowerChars s)

/-! ## Handler Extractor: `scanRouteHandlerMethods` -/

/-- The per-line loop of `scanRouteHandlerMethods`: for each line, the first
method of `HTTP_METHODS` whose export pattern tests true yields one node
`(method, lineNumber)`, and the line scan `break`s. -/
def scanLines : List String → Nat → List (String × Nat)
  | [], _ => []
  | line :: rest, i =>
    match HTTP_METHODS.find? (fun m => exportDeclTest m line) with
    | some m => (m, i) :: scanLines rest (i + 1)
    | none => scanLines rest (i + 1)

/-- `scanRouteHandlerMethods` of `extension.ts`, restricted to its pure core:
the ordered list of `(method, zero-based line)` pairs extracted from a route
file's content. -/
def scanRouteHandlerMethods (content : String) : List (String × Nat) :=
  scanLines (splitLines content) 0

/-! ## Mutation Engine: Create (`createNewRoute`, file-content core) -/

/-- `generateRouteHandler` of `extension.ts`: the generated source for one
method Handler.  The `\x7b`/`\x7d`/`\x27` escapes denote the braces and
quotes of the generated JavaScript text. -/
def generateRouteHandler (method fileExt : String) : String :=
  "export const " ++ method ++ " = " ++
    (if fileExt = "ts" then "(request: NextRequest)" else "(request)") ++
    " => \x7b\n  return NextResponse.json(\x7b message: \x27Hello from Next.js!\x27 \x7d);\n\x7d;"

/-- `generateRouteFile` of `extension.ts`: boilerplate import (typed projects
only) followed by the generated Handler. -/
def generateRouteFile (method fileExt : String) : String :=
  (if fileExt = "ts"
   then "import \x7b NextRequest, NextResponse \x7d from \x27next/server\x27;\n\n"
   else "") ++ generateRouteHandler method fileExt

/-- The existence check of `createNewRoute`:
`content.includes("export async function " ++ method)`. -/
def createMethodExistsCheck (content method : String) : Bool :=
  containsStr content ("export async function " ++ method)

/-- File-content core of `createNewRoute` for an already-resolved target file:
given the current content of `route.<ext>` (or `none` if the file does not
exist), returns the resulting file content together with a flag that is `true`
exactly when the "Method already exists" warning is shown (in which case the
content is returned unchanged). -/
def createNewRoute (existing : Option String) (method fileExtension : String) :
    String × Bool :=
  match existing with
  | some content =>
    if createMethodExistsCheck content method then (content, true)
    else (content ++ "\n\n" ++ generateRouteHandler method fileExtension, false)
  | none => (generateRouteFile method fileExtension, false)

/-! ## Mutation Engine: merge (`mergeRouteFiles` and helpers) -/

/-- The pattern `export\s+(const|async\s+const)\s+M\s*=` (the
`arrowFunctionPattern` of `mergeRouteFiles`), matched at the head of `cs`. -/
def arrowPatternAt (m : List Char) (cs : List Char) : Bool :=
  match stripLit "export".data cs with
  | none => false
  | some cs1 =>
    match wsPlus cs1 with
    | none => false
    | some cs2 =>
      let afterGroup : Option (List Char) :=
        match stripLit "const".data cs2 with
        | some r => some r
        | none =>
          match stripLit "async".data cs2 with
          | some cs3 =>
            match wsPlus cs3 with
            | some cs4 => stripLit "const".data cs4
            | none => none
          | none => none
      match afterGroup with
      | none => false
      | some cs5 =>
        match wsPlus cs5 with
        | none => false
        | some cs6 =>
          match stripLit m cs6 with
          | some cs7 => wsStarThen '=' cs7
          | none => false

/-- The pattern `export\s+(async\s+)?function\s+M\s*\(` (the
`functionDeclPattern` of `mergeRouteFiles`), matched at the head of `cs`. -/
def funcPatternAt (m : List Char) (cs : List Char) : Bool :=
  match stripLit "export".data cs with
  | none => false
  | some cs1 =>
    match wsPlus cs1 with
    | none => false
    | some cs2 =>
      let afterAsync : List (List Char) :=
        match stripLit "async".data cs2 with
        | some cs3 =>
          match wsPlus cs3 with
          | some cs4 => [cs2, cs4]
          | none => [cs2]
        | none => [cs2]
      afterAsync.any fun csx =>
        match stripLit "function".data csx with
        | some cs5 =>
          match wsPlus cs5 with
          | some cs6 =>
            match stripLit m cs6 with
            | some cs7 => wsStarThen '(' cs7
            | none => false
          | none => false
        | none => false

/-- `arrowFunctionPattern.test line` (regex search, `i` flag). -/
def arrowFunctionTest (m line : String) : Bool :=
  searchTails (arrowPatternAt (lowerChars m)) (lowerChars line)

/-- `functionDeclPattern.test line` (regex search, `i` flag). -/
def functionDeclTest (m line : String) : Bool :=
  searchTails (funcPatternAt (lowerChars m)) (lowerChars line)

/-- Net brace count of a line:
`(line.match(/{/g) || []).length - (line.match(/}/g) || []).length`. -/
def braceDelta (line : String) : Int :=
  (line.data.count (Char.ofNat 123) : Int) - (line.data.count (Char.ofNat 125) : Int)

/-- The mutable locals of the method-extraction loop of `mergeRouteFiles`. -/
structure MergeScanState where
  collectingMethod : Bool
  currentMethod : String
  methodContent : String
  braceCount : Int
  methodsToAdd : List String
deriving DecidableEq

/-- One iteration of the method-extraction loop of `mergeRouteFiles`
(line index `i`, line text `line`): first the method-declaration check with
its one-liner special case, then the multi-line continuation branch guarded
by `collectingMethod && i > 0`. -/
def mergeScanStep (st : MergeScanState) (i : Nat) (line : String) : MergeScanState :=
  let st1 :=
    match HTTP_METHODS.find? (fun m => arrowFunctionTest m line || functionDeclTest m line) with
    | some m =>
      let bc := st.braceCount + braceDelta line
      if bc = 0 && containsStr line "=>" && containsStr line ";" then
        { st with collectingMethod := false, currentMethod := m, methodContent := line,
                  braceCount := bc, methodsToAdd := st.methodsToAdd ++ [line] }
      else
        { st with collectingMethod := true, currentMethod := m, methodContent := line,
                  braceCount := bc }
    | none => st
  if st1.collectingMethod && decide (0 < i) then
    let mc := st1.methodContent ++ "\n" ++ line
    let bc := st1.braceCount + braceDelta line
    if bc = 0 then
      { st1 with collectingMethod := false, methodContent := mc, braceCount := bc,
                 methodsToAdd := st1.methodsToAdd ++ [mc] }
    else
      { st1 with methodContent := mc, braceCount := bc }
  else st1

/-- Fold of `mergeScanStep` over the numbered lines. -/
def mergeScanGo (st : MergeScanState) (i : Nat) : List String → MergeScanState
  | [] => st
  | line :: rest => mergeScanGo (mergeScanStep st i line) (i + 1) rest

/-- The `methodsToAdd` list extracted from the source lines by
`mergeRouteFiles` (initial state: not collecting, empty strings, brace
count 0). -/
def methodsToAddOf (sourceLines : List String) : List String :=
  (mergeScanGo ⟨false, "", "", 0, []⟩ 0 sourceLines).methodsToAdd

/-- `line.trim().startsWith("import ")`. -/
def trimStartsImport (line : String) : Bool :=
  "import ".data.isPrefixOf (trimChars line)

/-- The import filter of `mergeRouteFiles`:
`line.trim().startsWith("import ") && line.includes("from ")`. -/
def isImportLine (line : String) : Bool :=
  trimStartsImport line && containsStr line "from "

/-- Backwards scan of `getLastImportIndex`, numbering lines from `i`. -/
def getLastImportIndexGo : List String → Nat → Option Nat
  | [], _ => none
  | line :: rest, i =>
    match getLastImportIndexGo rest (i + 1) with
    | some j => some j
    | none => if trimStartsImport line then some i else none

/-- `getLastImportIndex` of `extension.ts` (`none` embeds `-1`): index of the
last line whose trimmed text starts with `"import "`. -/
def getLastImportIndex (lines : List String) : Option Nat :=
  getLastImportIndexGo lines 0

/-- `getMethodNameFromCode` of `extension.ts`: first method of `HTTP_METHODS`
whose export-declaration pattern tests true against the whole code (the
pattern is the same shape as the scanner's; `\s` may span newlines). -/
def getMethodNameFromCode (code : String) : Option String :=
  HTTP_METHODS.find? (fun m => exportDeclTest m code)

/-- `hasMethodDefinition` of `extension.ts`. -/
def hasMethodDefinition (content methodName : String) : Bool :=
  exportDeclTest methodName content

/-- JavaScript `array.splice(j, 0, a)`: insert `a` at index `j`. -/
def spliceInsert (j : Nat) (a : String) (l : List String) : List String :=
  l.take j ++ [a] ++ l.drop j

/-- The import-insertion loop of `mergeRouteFiles`: folds over the source
imports, mutating the target-line array and the updated content string. -/
def mergeImportsGo : List String → List String → String → List String × String
  | [], tl, updated => (tl, updated)
  | imp :: rest, tl, updated =>
    if containsStr updated imp then mergeImportsGo rest tl updated
    else
      let tl' :=
        match getLastImportIndex tl with
        | some j => spliceInsert (j + 1) imp tl
        | none => imp :: tl
      mergeImportsGo rest tl' (joinNl tl')

/-- The method-append loop of `mergeRouteFiles`. -/
def mergeMethodsGo : List String → String → String
  | [], updated => updated
  | code :: rest, updated =>
    let updated' :=
      match getMethodNameFromCode code with
      | some name =>
        if hasMethodDefinition updated name then updated
        else updated ++ "\n\n" ++ code
      | none => updated
    mergeMethodsGo rest updated'

/-- `mergeRouteFiles` of `extension.ts`, as a pure function from the source
and target file contents to the content written back to the target file. -/
def mergeRouteFiles (sourceContent targetContent : String) : String :=
  let sourceLines := splitLines sourceContent
  let targetLines := splitLines targetContent
  let sourceImports := sourceLines.filter isImportLine
  let methodsToAdd := methodsToAddOf sourceLines
  let (_, updated) := mergeImportsGo sourceImports targetLines targetContent
  mergeMethodsGo methodsToAdd updated

/-! ## Filesystem tree model and the Route Tree Scanner (`findRouteFiles`)

A directory tree is a list of named entries.  The `visitedDirs` set of the
source only guards against symbolic-link cycles, which a finite tree cannot
contain, so it is omitted.  Route paths are accumulated exactly as the
source builds them (no leading slash; segments joined by `/`). -/

/-- One filesystem entry: a file with content, or a directory with entries. -/
inductive FsEntry where
  | file (name : String) (content : String)
  | dir (name : String) (entries : List FsEntry)

/-- `isRouteFile` of `extension.ts`: `/^route\.(js|ts|jsx|tsx)$/`. -/
def isRouteFile (filename : String) : Bool :=
  filename = "route.js" || filename = "route.ts" ||
  filename = "route.jsx" || filename = "route.tsx"

/-- The system directories always skipped: `["node_modules", ".next", ".git"]`. -/
def isSystemDir (name : String) : Bool :=
  name = "node_modules" || name = ".next" || name = ".git"

/-- The skip condition of `findRouteFiles` for a child directory: system
directory or private (`_`-prefixed) folder. -/
def skipDir (name : String) : Bool :=
  isSystemDir name || "_".data.isPrefixOf name.data

/-- A route group: `entry.name.startsWith("(") && entry.name.endsWith(")")`. -/
def isGroup (name : String) : Bool :=
  "(".data.isPrefixOf name.data && name.data.getLast? == some ')'

/-- `routePath.endsWith("/")` (single-character suffix check). -/
def hasTrailingSlash (p : String) : Bool := p.data.getLast? == some '/'

/-- The route-path extension of `findRouteFiles`: append `/` if the
accumulated path is non-empty and does not already end in `/`, then append
the segment name.  (All four segment-kind branches of the source append
`entry.name` itself: the catch-all and optional catch-all branches rebuild
exactly the original name from its parameter.) -/
def extendPath (p n : String) : String :=
  (if p ≠ "" ∧ hasTrailingSlash p = false then p ++ "/" else p) ++ n

/-- Path passed to the recursive call for a child directory: route groups
recurse without extending the logical path. -/
def stepPath (p n : String) : String := if isGroup n then p else extendPath p n

/-- `displayPath = routePath || "/"`. -/
def displayPath (p : String) : String := if p = "" then "/" else p

/-- Route kind, for icon display: `[` anywhere makes it dynamic, `[...`
anywhere makes it catch-all. -/
def routeTypeOf (p : String) : String :=
  if containsStr p "[" then (if containsStr p "[..." then "catchAll" else "dynamic")
  else "static"

/-- One Route node of the scanner output (`RouteNode` of kind `Route`,
restricted to its data fields; `filePath` is the segment list of the handler
file from the scan root). -/
structure RouteEntry where
  routePath : String
  filePath : List String
  methods : List (String × Nat)
  routeType : String
deriving DecidableEq

/-- The `routeFile` local of `findRouteFiles`: the last entry of the
directory whose name matches `isRouteFile` (each later match overwrites the
variable). -/
def lastRouteFile : List FsEntry → Option (String × String)
  | [] => none
  | FsEntry.file n c :: rest =>
    (match lastRouteFile rest with
     | some r => some r
     | none => if isRouteFile n then some (n, c) else none)
  | FsEntry.dir _ _ :: rest => lastRouteFile rest

/-- The Route node pushed for the directory itself (after the entry loop),
if its route file yields at least one method. -/
def selfRoutes (es : List FsEntry) (d : List String) (p : String) : List RouteEntry :=
  match lastRouteFile es with
  | some (n, c) =>
    let ms := scanRouteHandlerMethods c
    if ms.isEmpty then []
    else [⟨displayPath p, d ++ [n], ms, routeTypeOf (displayPath p)⟩]
  | none => []

mutual
/-- Contribution of one entry of the loop of `findRouteFiles`: files
contribute nothing here (the route file is handled by `selfRoutes`); a
non-skipped child directory contributes its whole subtree, children first,
then the child's own route. -/
def scanEntry : FsEntry → List String → String → List RouteEntry
  | FsEntry.file _ _, _, _ => []
  | FsEntry.dir n sub, d, p =>
    if skipDir n then []
    else scanChildren sub (d ++ [n]) (stepPath p n) ++ selfRoutes sub (d ++ [n]) (stepPath p n)

/-- The entry loop of `findRouteFiles`, in entry order. -/
def scanChildren : List FsEntry → List String → String → List RouteEntry
  | [], _, _ => []
  | e :: rest, d, p => scanEntry e d p ++ scanChildren rest d p
end

/-- `findRouteFiles` of `extension.ts`: routes of all child subtrees, then
the route of the directory itself. -/
def findRouteFiles (es : List FsEntry) (d : List String) (p : String) : List RouteEntry :=
  scanChildren es d p ++ selfRoutes es d p

/-! ## `cleanupOrphanedDirectories` (invoked by `refresh` before scanning)

Paths are segment lists relative to the routing root (`appDirPath` itself is
the empty path, which the source excludes from `allDirectories` via its
`relPath` check). -/

/-- Entries of the first directory named `n` (the resolution used by
`readdirSync`/`rmdirSync` on a path; names are unique in a real directory). -/
def findTop (n : String) : List FsEntry → Option (List FsEntry)
  | [] => none
  | FsEntry.dir m sub :: rest => if m = n then some sub else findTop n rest
  | FsEntry.file _ _ :: rest => findTop n rest

/-- Resolve a relative path to the entries of the directory it names. -/
def getDirAt : List String → List FsEntry → Option (List FsEntry)
  | [], es => some es
  | n :: q, es =>
    match findTop n es with
    | some sub => getDirAt q sub
    | none => none

/-- `fs.existsSync` for a directory path. -/
def existsDirAt (q : List String) (es : List FsEntry) : Bool :=
  (getDirAt q es).isSome

/-- `fs.readdirSync(dir).length === 0` for a directory path. -/
def isEmptyAt (q : List String) (es : List FsEntry) : Bool :=
  match getDirAt q es with
  | some l => l.isEmpty
  | none => false

/-- Remove the first directory named `n` from an entry list (`rmdirSync` at
the top level of the current directory). -/
def removeTop (n : String) : List FsEntry → List FsEntry
  | [] => []
  | FsEntry.dir m sub :: rest =>
    if m = n then rest else FsEntry.dir m sub :: removeTop n rest
  | FsEntry.file m c :: rest => FsEntry.file m c :: removeTop n rest

/-- Rewrite the entries of the first directory named `n` with `g`. -/
def modifyTop (n : String) (g : List FsEntry → List FsEntry) : List FsEntry → List FsEntry
  | [] => []
  | FsEntry.dir m sub :: rest =>
    if m = n then FsEntry.dir m (g sub) :: rest else FsEntry.dir m sub :: modifyTop n g rest
  | FsEntry.file m c :: rest => FsEntry.file m c :: modifyTop n g rest

/-- `fs.rmdirSync` at a relative path (no-op on the empty path: the routing
root itself is not an entry of the forest). -/
def removeDirAt : List String → List FsEntry → List FsEntry
  | [], es => es
  | n :: q, es =>
    match q with
    | [] => removeTop n es
    | _ :: _ => modifyTop n (fun s => removeDirAt q s) es

mutual
/-- All files of one entry, as `(absolute segment path, content)` pairs. -/
def filesOfEntry (cur : List String) : FsEntry → List (List String × String)
  | FsEntry.file n c => [(cur ++ [n], c)]
  | FsEntry.dir n sub => filesUnder (cur ++ [n]) sub

/-- All files of a forest, as `(absolute segment path, content)` pairs. -/
def filesUnder (cur : List String) : List FsEntry → List (List String × String)
  | [] => []
  | e :: rest => filesOfEntry cur e ++ filesUnder cur rest
end

/-- The `while (currentDir !== basePath)` ancestor walk of
`cleanupOrphanedDirectories`: the directory and all its proper ancestors
strictly below the routing root. -/
def ancestorChain (p : List String) : List (List String) :=
  (List.range p.length).map fun k => p.take (p.length - k)

mutual
/-- `collectValidDirectories` called on one child directory entry: its own
path joins `allDirectories`; if its subtree scan reports a directly contained
route file, the ancestor walk adds the directory and its ancestors to
`validDirectories`. -/
def collectEntry (cur : List String) : FsEntry → List (List String) × List (List String)
  | FsEntry.file _ _ => ([], [])
  | FsEntry.dir name sub =>
    let t := collectList (cur ++ [name]) sub
    ((cur ++ [name]) :: t.1,
     (if t.2.2 then ancestorChain (cur ++ [name]) else []) ++ t.2.1)

/-- The entry loop of `collectValidDirectories` at directory `cur`: recurse
into non-system, non-private child directories; `break` at the first entry
whose name matches the route-file pattern, marking `cur` valid.  Returns
`(allDirectories, validDirectories, hasRouteFile)` contributions. -/
def collectList (cur : List String) : List FsEntry → List (List String) × List (List String) × Bool
  | [] => ([], [], false)
  | e :: rest =>
    match e with
    | FsEntry.file name _ =>
      if isRouteFile name then ([], [cur], true)
      else collectList cur rest
    | FsEntry.dir name sub =>
      if !isSystemDir name && !("_".data.isPrefixOf name.data) then
        let s := collectEntry cur (FsEntry.dir name sub)
        let r := collectList cur rest
        (s.1 ++ r.1, s.2 ++ r.2.1, r.2.2)
      else if isRouteFile name then ([], [cur], true)
      else collectList cur rest
end

/-- Stable insertion step for the depth sort (`depthB - depthA`). -/
def insertByDepth (d : List String) : List (List String) → List (List String)
  | [] => [d]
  | x :: xs => if x.length < d.length then d :: x :: xs else x :: insertByDepth d xs

/-- Sort the collected directories deepest-first. -/
def sortByDepthDesc (l : List (List String)) : List (List String) :=
  l.foldr insertByDepth []

/-- The deletion pass of `cleanupOrphanedDirectories`: for each collected
directory, deepest first, delete it if it is not valid, still exists, and is
empty. -/
def orphanSweep (valid : List (List String)) : List (List String) → List FsEntry → List FsEntry
  | [], es => es
  | d :: rest, es =>
    orphanSweep valid rest
      (if valid.contains d then es
       else if existsDirAt d es && isEmptyAt d es then removeDirAt d es
       else es)

/-- `cleanupOrphanedDirectories` of `extension.ts`, on the forest under the
routing root. -/
def cleanupOrphanedDirectories (forest : List FsEntry) : List FsEntry :=
  let t := collectList [] forest
  orphanSweep t.2.1 (sortByDepthDesc t.1) forest

/-! ## `deleteRoute` and `cleanupEmptyDirectories`

This engine must speak about the routing root itself and about directories
outside it, so the filesystem is modelled as two sets of absolute paths
(segment lists).  `startsWith` on path strings is embedded as segment-list
prefix (`List.isPrefixOf`), `path.dirname` as `List.dropLast`. -/

/-- Absolute-path filesystem state: the existing directories and files. -/
structure FsState where
  dirs : List (List String)
  files : List (List String)
deriving DecidableEq

/-- Does `readdirSync d` list at least one entry (immediate child directory
or file)? -/
def hasChildEntry (fs : FsState) (d : List String) : Bool :=
  fs.dirs.any (fun p => !p.isEmpty && p.dropLast == d) ||
  fs.files.any (fun p => !p.isEmpty && p.dropLast == d)

/-- `fs.rmdirSync`: remove a directory path. -/
def removeDirPath (fs : FsState) (d : List String) : FsState :=
  ⟨fs.dirs.filter (fun p => p != d), fs.files⟩

/-- The recursion of `cleanupEmptyDirectories`, fuelled: each recursive call
strictly shortens `dirPath`, so fuel `dirPath.length + 1` is never
exhausted.  Guards in source order: empty / equal-to-root / not-under-root
path, then existence re-check, then emptiness; then delete and recurse on
the parent. -/
def cleanupEmptyDirsGo : Nat → FsState → List String → List String → FsState
  | 0, fs, _, _ => fs
  | fuel + 1, fs, dirPath, root =>
    if dirPath.isEmpty || dirPath == root || !(root.isPrefixOf dirPath) then fs
    else if !(fs.dirs.contains dirPath) then fs
    else if hasChildEntry fs dirPath then fs
    else cleanupEmptyDirsGo fuel (removeDirPath fs dirPath) dirPath.dropLast root

/-- `cleanupEmptyDirectories` of `extension.ts`. -/
def cleanupEmptyDirectories (fs : FsState) (dirPath root : List String) : FsState :=
  cleanupEmptyDirsGo (dirPath.length + 1) fs dirPath root

/-- `deleteRoute` of `extension.ts`, post-confirmation core: not-found check,
unlink, routing-root determination (`existsSync(appDir) && dir.startsWith(appDir)`),
then best-effort pruning from the file's directory. -/
def deleteRoute (fs : FsState) (filePath root : List String) : FsState :=
  if !(fs.files.contains filePath) then fs
  else
    let fs1 : FsState := ⟨fs.dirs, fs.files.filter (fun p => p != filePath)⟩
    let dir := filePath.dropLast
    if fs.dirs.contains root && root.isPrefixOf dir then
      cleanupEmptyDirectories fs1 dir root
    else fs1

/-! ## Reachability of directories in the scan (towards C5, C6, C7) -/

mutual
/-- Size of one entry (for induction over subtree recursion). -/
def entrySize : FsEntry → Nat
  | FsEntry.file _ _ => 1
  | FsEntry.dir _ sub => 1 + listSize sub

/-- Size of an entry forest. -/
def listSize : List FsEntry → Nat
  | [] => 0
  | e :: rest => entrySize e + listSize rest
end

/-- The directories the scanner descends into: the start itself, or through a
member child directory that is not skipped, a route group keeping the logical
path, any other segment extending it (`stepPath`). -/
inductive Reach : List FsEntry → List String → String → List FsEntry → List String → String → Prop where
  | refl (es : List FsEntry) (d : List String) (p : String) : Reach es d p es d p
  | step {es : List FsEntry} {d : List String} {p : String} (n : String) (sub : List FsEntry)
      {es' : List FsEntry} {d' : List String} {p' : String} :
      FsEntry.dir n sub ∈ es → skipDir n = false →
      Reach sub (d ++ [n]) (stepPath p n) es' d' p' →
      Reach es d p es' d' p'

/-! ## Logical paths are group-free joins of segment names (towards C7) -/

mutual
/-- Wellformedness of one on-disk entry: directory names are nonempty and
contain no path separator (true of every real directory). -/
def wfEntry : FsEntry → Bool
  | FsEntry.file _ _ => true
  | FsEntry.dir n sub => !n.data.isEmpty && !n.data.contains '/' && wfList sub

/-- Wellformedness of a forest. -/
def wfList : List FsEntry → Bool
  | [] => true
  | e :: rest => wfEntry e && wfList rest
end

/-- Segment names joined by `/`, exactly the accumulation rule of
`findRouteFiles`. -/
def joinPath : List String → String
  | [] => ""
  | s :: rest => rest.foldl (fun acc n => acc ++ "/" ++ n) s

/-- A logical path the scanner can accumulate: empty, or the `/`-join of
nonempty, separator-free, non-group segment names. -/
def PathInv (p : String) : Prop :=
  p = "" ∨ ∃ segs, segs ≠ [] ∧
    (∀ s ∈ segs, s.data ≠ [] ∧ '/' ∉ s.data ∧ isGroup s = false) ∧ p = joinPath segs

/-- The observations of a forest that the scanner depends on: the scan
output from any accumulated state, the resolved route file of the root
directory, and the set of files.  `cleanupOrphanedDirectories` preserves all
three. -/
def ScanPreserved (f g : List FsEntry) : Prop :=
  (∀ d p, scanChildren g d p = scanChildren f d p) ∧
  lastRouteFile g = lastRouteFile f ∧
  (∀ cur, filesUnder cur g = filesUnder cur f)

/-! ## Theorems: claims about the Mutation Engine's Create and merge -/

/-- C1: refuted by the code (code bug).  Creating the same logical path with
method GET twice must leave a single GET declaration, with the second Create
reporting "method already exists".  Instead the second Create does not warn
(`createMethodExistsCheck` searches for `export async function GET` while the
generator emits `export const GET =`) and appends a second GET handler: the
extractor then finds two GET declarations in the resulting file. -/
theorem claim_C1_create_appends_duplicate_method :
    ((scanRouteHandlerMethods (createNewRoute none "GET" "ts").1).map Prod.fst = ["GET"]) ∧
    createMethodExistsCheck (createNewRoute none "GET" "ts").1 "GET" = false ∧
    (createNewRoute (some (createNewRoute none "GET" "ts").1) "GET" "ts").2 = false ∧
    ((scanRouteHandlerMethods
        (createNewRoute (some (createNewRoute none "GET" "ts").1) "GET" "ts").1).map Prod.fst
      = ["GET", "GET"]) := by decide

/-- C2: refuted by the code (code bug).  Merging a source file that declares
GET (the extension's own generated file shape) onto a target that declares
POST must yield a target declaring both.  Instead the merged target declares
only POST — the GET handler is silently lost (and `renameRoute` then deletes
the source file), because the method-extraction loop of `mergeRouteFiles`
appends the declaration line to `methodContent` twice and double-counts its
opening brace, so the brace depth never returns to zero. -/
theorem claim_C2_merge_drops_source_get :
    ((scanRouteHandlerMethods (generateRouteFile "GET" "ts")).map Prod.fst = ["GET"]) ∧
    ((scanRouteHandlerMethods (generateRouteFile "POST" "ts")).map Prod.fst = ["POST"]) ∧
    ((scanRouteHandlerMethods
        (mergeRouteFiles (generateRouteFile "GET" "ts") (generateRouteFile "POST" "ts"))).map Prod.fst
      = ["POST"]) ∧
    hasMethodDefinition
      (mergeRouteFiles (generateRouteFile "GET" "ts") (generateRouteFile "POST" "ts")) "GET" = false := by
  decide

/-- C3: refuted by the code (code bug).  The merge-time span extraction must
capture the full textual span of every multi-line source handler with
balanced braces.  The generated GET file is brace-balanced (the per-line
brace deltas sum to zero) and declares GET on line 2, yet `methodsToAdd`
comes out empty: the declaration line is processed both by the declaration
branch and by the continuation branch (`collectingMethod && i > 0`), so its
opening brace is counted twice and the nesting depth never returns to zero.
A one-line arrow handler (no unbalanced braces, `=>` and `;` on the line) is
captured, as the claim states. -/
theorem claim_C3_multiline_span_not_captured :
    (((splitLines (generateRouteFile "GET" "ts")).map braceDelta).sum = 0) ∧
    ((scanRouteHandlerMethods (generateRouteFile "GET" "ts")).map Prod.fst = ["GET"]) ∧
    methodsToAddOf (splitLines (generateRouteFile "GET" "ts")) = [] ∧
    methodsToAddOf ["export const GET = (request) => NextResponse.json(\x7b\x7d);"]
      = ["export const GET = (request) => NextResponse.json(\x7b\x7d);"] := by decide

/-- C4, counterexample: `refresh` is not side-effect-free on the filesystem.
On a routing root containing an empty directory `orphan` (and a real route
at `api`), the `cleanupOrphanedDirectories` pass that `refresh` runs before
scanning deletes `orphan`, so the set of directories after the scan differs
from the set before. -/
theorem claim_C4_counterexample_directory_deleted :
    existsDirAt ["orphan"]
      [FsEntry.dir "orphan" [],
       FsEntry.dir "api" [FsEntry.file "route.ts" "export const GET = (r) => r;"]] = true ∧
    existsDirAt ["orphan"]
      (cleanupOrphanedDirectories
        [FsEntry.dir "orphan" [],
         FsEntry.dir "api" [FsEntry.file "route.ts" "export const GET = (r) => r;"]]) = false := by
  decide

/-! ## Scan preservation under orphan pruning (towards C4) -/

theorem scanPreserved_refl (f : List FsEntry) : ScanPreserved f f :=
  ⟨fun _ _ => rfl, rfl, fun _ => rfl⟩

theorem scanPreserved_trans {f g h : List FsEntry}
    (h1 : ScanPreserved f g) (h2 : ScanPreserved g h) : ScanPreserved f h :=
  ⟨fun d p => (h2.1 d p).trans (h1.1 d p), h2.2.1.trans h1.2.1,
   fun cur => (h2.2.2 cur).trans (h1.2.2 cur)⟩

theorem scanEntry_dir_nil (n : String) (d : List String) (p : String) :
    scanEntry (FsEntry.dir n []) d p = [] := by
  simp [scanEntry, scanChildren, selfRoutes, lastRouteFile]

theorem selfRoutes_congr {a b : List FsEntry} (h : lastRouteFile a = lastRouteFile b)
    (d : List String) (p : String) : selfRoutes a d p = selfRoutes b d p := by
  simp [selfRoutes, h]

theorem removeTop_preserves :
    ∀ (es : List FsEntry) (n : String), findTop n es = some [] →
      ScanPreserved es (removeTop n es) := by
  intro es
  induction es with
  | nil => intro n h; simp [findTop] at h
  | cons e rest ih =>
    intro n h
    cases e with
    | file m c =>
      simp only [findTop] at h
      obtain ⟨hsc, hlast, hfiles⟩ := ih n h
      refine ⟨fun d p => ?_, ?_, fun cur => ?_⟩
      · simp [removeTop, scanChildren, hsc]
      · simp [removeTop, lastRouteFile, hlast]
      · simp [removeTop, filesUnder, hfiles]
    | dir m sub =>
      simp only [findTop] at h
      by_cases hm : m = n
      · rw [if_pos hm] at h
        injection h with h
        subst h
        refine ⟨fun d p => ?_, ?_, fun cur => ?_⟩
        · simp [removeTop, if_pos hm, scanChildren, scanEntry_dir_nil]
        · simp [removeTop, if_pos hm, lastRouteFile]
        · simp [removeTop, if_pos hm, filesUnder, filesOfEntry]
      · rw [if_neg hm] at h
        obtain ⟨hsc, hlast, hfiles⟩ := ih n h
        refine ⟨fun d p => ?_, ?_, fun cur => ?_⟩
        · simp [removeTop, if_neg hm, scanChildren, hsc]
        · simp [removeTop, if_neg hm, lastRouteFile, hlast]
        · simp [removeTop, if_neg hm, filesUnder, hfiles]

theorem modifyTop_preserves :
    ∀ (es : List FsEntry) (n : String) (g : List FsEntry → List FsEntry)
      (sub : List FsEntry), findTop n es = some sub → ScanPreserved sub (g sub) →
      ScanPreserved es (modifyTop n g es) := by
  intro es
  induction es with
  | nil => intro n g sub h _; simp [findTop] at h
  | cons e rest ih =>
    intro n g sub h hg
    cases e with
    | file m c =>
      simp only [findTop] at h
      obtain ⟨hsc, hlast, hfiles⟩ := ih n g sub h hg
      refine ⟨fun d p => ?_, ?_, fun cur => ?_⟩
      · simp [modifyTop, scanChildren, hsc]
      · simp [modifyTop, lastRouteFile, hlast]
      · simp [modifyTop, filesUnder, hfiles]
    | dir m sub' =>
      simp only [findTop] at h
      by_cases hm : m = n
      · rw [if_pos hm] at h
        injection h with h
        subst h
        obtain ⟨hsc, hlast, hfiles⟩ := hg
        refine ⟨fun d p => ?_, ?_, fun cur => ?_⟩
        · simp only [modifyTop, if_pos hm, scanChildren, scanEntry]
          rw [hsc, selfRoutes_congr hlast]
        · simp [modifyTop, if_pos hm, lastRouteFile]
        · simp only [modifyTop, if_pos hm, filesUnder, filesOfEntry]
          rw [hfiles]
      · rw [if_neg hm] at h
        obtain ⟨hsc, hlast, hfiles⟩ := ih n g sub h hg
        refine ⟨fun d p => ?_, ?_, fun cur => ?_⟩
        · simp [modifyTop, if_neg hm, scanChildren, hsc]
        · simp [modifyTop, if_neg hm, lastRouteFile, hlast]
        · simp [modifyTop, if_neg hm, filesUnder, hfiles]

theorem removeDirAt_preserves :
    ∀ (q : List String) (es : List FsEntry), isEmptyAt q es = true →
      ScanPreserved es (removeDirAt q es) := by
  intro q
  induction q with
  | nil => intro es _; exact scanPreserved_refl es
  | cons n q ih =>
    intro es h
    simp only [isEmptyAt, getDirAt] at h
    cases hft : findTop n es with
    | none => rw [hft] at h; simp at h
    | some sub =>
      rw [hft] at h
      cases q with
      | nil =>
        simp only [getDirAt, List.isEmpty_iff] at h
        subst h
        simpa [removeDirAt] using removeTop_preserves es n hft
      | cons m q' =>
        have hsub : isEmptyAt (m :: q') sub = true := by
          simpa [isEmptyAt] using h
        simpa [removeDirAt] using
          modifyTop_preserves es n (fun s => removeDirAt (m :: q') s) sub hft (ih sub hsub)

theorem orphanSweep_preserves :
    ∀ (l : List (List String)) (valid : List (List String)) (es : List FsEntry),
      ScanPreserved es (orphanSweep valid l es) := by
  intro l
  induction l with
  | nil => intro valid es; exact scanPreserved_refl es
  | cons d rest ih =>
    intro valid es
    simp only [orphanSweep]
    by_cases hv : valid.contains d
    · rw [if_pos hv]; exact ih valid es
    · rw [if_neg hv]
      by_cases hg : existsDirAt d es && isEmptyAt d es
      · rw [if_pos hg]
        have hempty : isEmptyAt d es = true := by
          have := hg
          simp [Bool.and_eq_true] at this
          exact this.2
        exact scanPreserved_trans (removeDirAt_preserves d es hempty) (ih valid _)
      · rw [if_neg hg]; exact ih valid es

/-- C4, amended: the pure scan is deterministic and read-only, but `refresh`
first prunes empty orphaned directories via `cleanupOrphanedDirectories`;
that pruning removes no file and leaves the scanned Route forest unchanged,
so the forests produced before and after the pruning (and by any two scans
of the pruned tree) are equal. -/
theorem claim_C4_amended_cleanup_preserves_scan (forest : List FsEntry) :
    findRouteFiles (cleanupOrphanedDirectories forest) [] "" = findRouteFiles forest [] "" ∧
    filesUnder [] (cleanupOrphanedDirectories forest) = filesUnder [] forest := by
  have h : ScanPreserved forest (cleanupOrphanedDirectories forest) := by
    simpa [cleanupOrphanedDirectories] using
      orphanSweep_preserves (sortByDepthDesc (collectList [] forest).1)
        (collectList [] forest).2.1 forest
  obtain ⟨hsc, hlast, hfiles⟩ := h
  refine ⟨?_, hfiles []⟩
  simp only [findRouteFiles]
  rw [hsc, selfRoutes_congr hlast]

/-! ## Characterization of the Handler Extractor (towards C9) -/

theorem scanLines_mem :
    ∀ (l : List String) (i : Nat) (m : String) (j : Nat),
      (m, j) ∈ scanLines l i ↔
        ∃ k line, l.get? k = some line ∧ j = i + k ∧
          HTTP_METHODS.find? (fun mm => exportDeclTest mm line) = some m := by
  intro l
  induction l with
  | nil =>
    intro i m j
    simp [scanLines]
  | cons line rest ih =>
    intro i m j
    cases hf : HTTP_METHODS.find? (fun mm => exportDeclTest mm line) with
    | some m0 =>
      simp only [scanLines, hf]
      constructor
      · intro h
        rcases List.mem_cons.mp h with heq | hmem
        · obtain ⟨hm, hj⟩ := Prod.mk.injEq .. ▸ heq
          refine ⟨0, line, rfl, by omega, ?_⟩
          rw [hf, hm]
        · obtain ⟨k, line', hget, hj, hfind⟩ := (ih (i + 1) m j).mp hmem
          exact ⟨k + 1, line', hget, by omega, hfind⟩
      · rintro ⟨k, line', hget, rfl, hfind⟩
        cases k with
        | zero =>
          simp only [List.get?] at hget
          injection hget with hget
          subst hget
          rw [hf] at hfind
          injection hfind with hfind
          subst hfind
          simp
        | succ k' =>
          refine List.mem_cons.mpr (Or.inr ?_)
          refine (ih (i + 1) m (i + (k' + 1))).mpr ⟨k', line', hget, by omega, hfind⟩
    | none =>
      simp only [scanLines, hf]
      constructor
      · intro h
        obtain ⟨k, line', hget, hj, hfind⟩ := (ih (i + 1) m j).mp h
        exact ⟨k + 1, line', hget, by omega, hfind⟩
      · rintro ⟨k, line', hget, rfl, hfind⟩
        cases k with
        | zero =>
          simp only [List.get?] at hget
          injection hget with hget
          subst hget
          rw [hf] at hfind
          exact absurd hfind (by simp)
        | succ k' =>
          exact (ih (i + 1) m (i + (k' + 1))).mpr ⟨k', line', hget, by omega, hfind⟩

theorem scanLines_sorted :
    ∀ (l : List String) (i : Nat),
      List.Pairwise (fun a b : String × Nat => a.2 < b.2) (scanLines l i) := by
  intro l
  induction l with
  | nil => intro i; simp [scanLines]
  | cons line rest ih =>
    intro i
    have hbound : ∀ b ∈ scanLines rest (i + 1), i < b.2 := by
      intro b hb
      obtain ⟨k, line', _, hj, _⟩ := (scanLines_mem rest (i + 1) b.1 b.2).mp hb
      omega
    cases hf : HTTP_METHODS.find? (fun mm => exportDeclTest mm line) with
    | some m0 =>
      simp only [scanLines, hf]
      exact List.pairwise_cons.mpr ⟨hbound, ih (i + 1)⟩
    | none =>
      simp only [scanLines, hf]
      exact ih (i + 1)

/-- C9: confirmed.  The extractor returns handlers in strictly increasing
source-line order (hence at most one Handler per line); every returned pair
is one of the seven upper-case method names together with a line on which
that method's export-declaration pattern (`exportDeclTest`, which accepts the
identifier case-insensitively) matches; and every line on which some
recognized method's pattern matches contributes a handler. -/
theorem claim_C9_extractor_shape (content : String) :
    List.Pairwise (fun a b : String × Nat => a.2 < b.2) (scanRouteHandlerMethods content) ∧
    (∀ m j, (m, j) ∈ scanRouteHandlerMethods content →
      m ∈ HTTP_METHODS ∧
      ∃ line, (splitLines content).get? j = some line ∧ exportDeclTest m line = true) ∧
    (∀ j line, (splitLines content).get? j = some line →
      ∀ m, m ∈ HTTP_METHODS → exportDeclTest m line = true →
      ∃ m', (m', j) ∈ scanRouteHandlerMethods content) := by
  refine ⟨scanLines_sorted (splitLines content) 0, ?_, ?_⟩
  · intro m j hmem
    obtain ⟨k, line, hget, hj, hfind⟩ :=
      (scanLines_mem (splitLines content) 0 m j).mp hmem
    have htest : exportDeclTest m line = true := by
      have := List.find?_some hfind
      simpa using this
    refine ⟨List.mem_of_find?_eq_some hfind, line, ?_, htest⟩
    rw [hj]
    simpa using hget
  · intro j line hget m hm htest
    have hsome : (HTTP_METHODS.find? (fun mm => exportDeclTest mm line)).isSome := by
      rw [List.find?_isSome]
      exact ⟨m, hm, htest⟩
    obtain ⟨m', hm'⟩ := Option.isSome_iff_exists.mp hsome
    exact ⟨m', (scanLines_mem (splitLines content) 0 m' j).mpr ⟨j, line, hget, by omega, hm'⟩⟩

/-- Witness for C9 at a concrete file: line 0 of
`export const get = (request) => new Response();` (lower-case identifier)
yields a handler. -/
theorem claim_C9_extractor_shape_witness :
    ∃ m', (m', 0) ∈ scanRouteHandlerMethods "export const get = (request) => new Response();" :=
  (claim_C9_extractor_shape "export const get = (request) => new Response();").2.2 0
    "export const get = (request) => new Response();" (by decide) "GET" (by decide) (by decide)

/-! ## Safety of empty-directory pruning (towards C10) -/

theorem cleanupEmptyDirsGo_spec :
    ∀ (fuel : Nat) (fs : FsState) (d root : List String),
      (cleanupEmptyDirsGo fuel fs d root).files = fs.files ∧
      (∀ q, q ∈ fs.dirs → q ∉ (cleanupEmptyDirsGo fuel fs d root).dirs →
        root <+: q ∧ q ≠ root ∧ ∀ x, q ++ [x] ∉ fs.files) := by
  intro fuel
  induction fuel with
  | zero =>
    intro fs d root
    exact ⟨rfl, fun q hq hnq => absurd hq hnq⟩
  | succ fuel ih =>
    intro fs d root
    simp only [cleanupEmptyDirsGo]
    by_cases h1 : d.isEmpty || d == root || !(root.isPrefixOf d)
    · rw [if_pos h1]
      exact ⟨rfl, fun q hq hnq => absurd hq hnq⟩
    · rw [if_neg h1]
      by_cases h2 : !(fs.dirs.contains d)
      · rw [if_pos h2]
        exact ⟨rfl, fun q hq hnq => absurd hq hnq⟩
      · rw [if_neg h2]
        by_cases h3 : hasChildEntry fs d
        · rw [if_pos h3]
          exact ⟨rfl, fun q hq hnq => absurd hq hnq⟩
        · rw [if_neg h3]
          obtain ⟨ihf, ihd⟩ := ih (removeDirPath fs d) d.dropLast root
          have hfiles : (removeDirPath fs d).files = fs.files := rfl
          refine ⟨ihf.trans hfiles, ?_⟩
          intro q hq hnq
          by_cases hqd : q = d
          · subst hqd
            replace h1 : (q == root) = false ∧ root.isPrefixOf q = true := by
              constructor
              · cases hc : q == root with
                | false => rfl
                | true => exact absurd (by simp [hc]) h1
              · cases hd : root.isPrefixOf q with
                | false => exact absurd (by simp [hd]) h1
                | true => rfl
            refine ⟨List.isPrefixOf_iff_prefix.mp h1.2, ?_, ?_⟩
            · intro hqr
              have := h1.1
              rw [hqr] at this
              simp at this
            · intro x hx
              apply h3
              simp only [hasChildEntry, Bool.or_eq_true, List.any_eq_true]
              right
              refine ⟨q ++ [x], hx, ?_⟩
              simp
          · have hq' : q ∈ (removeDirPath fs d).dirs := by
              simp only [removeDirPath, List.mem_filter]
              exact ⟨hq, by simpa using hqd⟩
            obtain ⟨ha, hb, hc⟩ := ihd q hq' hnq
            exact ⟨ha, hb, fun x => (hfiles ▸ hc x)⟩

/-- C10: confirmed.  After deleting a handler file, pruning removes only
directories that are strictly below the routing root (never the root itself,
never any directory outside or above it — every removed directory has the
root as a proper prefix) and that have no remaining immediate file entry;
no file other than the deleted one is ever removed.  The existence re-check
at each recursive step and the error swallowing of
`cleanupEmptyDirectories` are embedded in the totality of `cleanupEmptyDirsGo`:
pruning always yields a filesystem, never a failure of the Delete operation. -/
theorem claim_C10_delete_prune_safety (fs : FsState) (filePath root : List String) :
    (∀ f, f ∈ fs.files → f ≠ filePath → f ∈ (deleteRoute fs filePath root).files) ∧
    (∀ q, q ∈ fs.dirs → q ∉ (deleteRoute fs filePath root).dirs →
      root <+: q ∧ q ≠ root ∧
      ∀ x, q ++ [x] ∉ fs.files.filter (fun p => p != filePath)) ∧
    (root ∈ fs.dirs → root ∈ (deleteRoute fs filePath root).dirs) := by
  have main :
      (∀ f, f ∈ fs.files → f ≠ filePath → f ∈ (deleteRoute fs filePath root).files) ∧
      (∀ q, q ∈ fs.dirs → q ∉ (deleteRoute fs filePath root).dirs →
        root <+: q ∧ q ≠ root ∧
        ∀ x, q ++ [x] ∉ fs.files.filter (fun p => p != filePath)) := by
    unfold deleteRoute
    by_cases h0 : !(fs.files.contains filePath)
    · rw [if_pos h0]
      exact ⟨fun f hf _ => hf, fun q hq hnq => absurd hq hnq⟩
    · rw [if_neg h0]
      by_cases h1 : fs.dirs.contains root && root.isPrefixOf filePath.dropLast
      · rw [if_pos h1]
        obtain ⟨hfiles, hdirs⟩ :=
          cleanupEmptyDirsGo_spec (filePath.dropLast.length + 1)
            ⟨fs.dirs, fs.files.filter (fun p => p != filePath)⟩ filePath.dropLast root
        constructor
        · intro f hf hne
          rw [cleanupEmptyDirectories] at *
          rw [hfiles]
          simp only [List.mem_filter]
          exact ⟨hf, by simpa using hne⟩
        · intro q hq hnq
          rw [cleanupEmptyDirectories] at hnq
          exact hdirs q hq hnq
      · rw [if_neg h1]
        constructor
        · intro f hf hne
          simp only [List.mem_filter]
          exact ⟨hf, by simpa using hne⟩
        · exact fun q hq hnq => absurd hq hnq
  refine ⟨main.1, main.2, ?_⟩
  intro hroot
  by_contra hnr
  exact absurd rfl (main.2 root hroot hnr).2.1

/-- Witness for C10 at a concrete filesystem: deleting
`r/app/a/b/route.ts` under routing root `r/app` prunes the emptied
directories but keeps the routing root. -/
theorem claim_C10_delete_prune_safety_witness :
    ["r", "app"] ∈
      (deleteRoute
        ⟨[["r"], ["r", "app"], ["r", "app", "a"], ["r", "app", "a", "b"]],
         [["r", "app", "a", "b", "route.ts"]]⟩
        ["r", "app", "a", "b", "route.ts"] ["r", "app"]).dirs :=
  (claim_C10_delete_prune_safety
    ⟨[["r"], ["r", "app"], ["r", "app", "a"], ["r", "app", "a", "b"]],
     [["r", "app", "a", "b", "route.ts"]]⟩
    ["r", "app", "a", "b", "route.ts"] ["r", "app"]).2.2 (by decide)

theorem entrySize_pos : ∀ e : FsEntry, 1 ≤ entrySize e := by
  intro e
  cases e <;> simp [entrySize]

theorem listSize_lt_of_mem :
    ∀ {es : List FsEntry} {n : String} {sub : List FsEntry},
      FsEntry.dir n sub ∈ es → listSize sub < listSize es := by
  intro es
  induction es with
  | nil => intro n sub h; simp at h
  | cons e rest ih =>
    intro n sub h
    rcases List.mem_cons.mp h with heq | hmem
    · rw [← heq]
      simp only [listSize, entrySize]
      omega
    · have := ih hmem
      have := entrySize_pos e
      simp only [listSize]
      omega

theorem mem_scanChildren :
    ∀ (es : List FsEntry) (d : List String) (p : String) (r : RouteEntry),
      r ∈ scanChildren es d p ↔ ∃ e, e ∈ es ∧ r ∈ scanEntry e d p := by
  intro es d p r
  induction es with
  | nil => simp [scanChildren]
  | cons e rest ih =>
    simp only [scanChildren, List.mem_append, ih, List.mem_cons]
    constructor
    · rintro (h | ⟨e', he', hr⟩)
      · exact ⟨e, Or.inl rfl, h⟩
      · exact ⟨e', Or.inr he', hr⟩
    · rintro ⟨e', heq | he', hr⟩
      · subst heq; exact Or.inl hr
      · exact Or.inr ⟨e', he', hr⟩

theorem mem_selfRoutes :
    ∀ (es : List FsEntry) (d : List String) (p : String) (r : RouteEntry),
      r ∈ selfRoutes es d p ↔
        ∃ n c, lastRouteFile es = some (n, c) ∧ scanRouteHandlerMethods c ≠ [] ∧
          r = ⟨displayPath p, d ++ [n], scanRouteHandlerMethods c, routeTypeOf (displayPath p)⟩ := by
  intro es d p r
  cases h : lastRouteFile es with
  | none => simp [selfRoutes, h]
  | some nc =>
    obtain ⟨n, c⟩ := nc
    by_cases he : (scanRouteHandlerMethods c).isEmpty = true
    · have hnil : scanRouteHandlerMethods c = [] := List.isEmpty_iff.mp he
      simp only [selfRoutes, h]
      rw [if_pos he]
      simp [hnil]
    · have hne : scanRouteHandlerMethods c ≠ [] := by
        simpa [List.isEmpty_iff] using he
      simp only [selfRoutes, h]
      rw [if_neg he]
      constructor
      · intro hr
        exact ⟨n, c, rfl, hne, by simpa using hr⟩
      · rintro ⟨n', c', hnc, _, hr⟩
        injection hnc with hnc
        have hn : n = n' := congrArg Prod.fst hnc
        have hc : c = c' := congrArg Prod.snd hnc
        subst hn
        subst hc
        simp [hr]

theorem scan_to_reach_aux :
    ∀ (N : Nat) (es : List FsEntry) (d : List String) (p : String) (r : RouteEntry),
      listSize es ≤ N → r ∈ findRouteFiles es d p →
      ∃ es' d' p', Reach es d p es' d' p' ∧ r ∈ selfRoutes es' d' p' := by
  intro N
  induction N with
  | zero =>
    intro es d p r hsize hmem
    have hnil : es = [] := by
      cases es with
      | nil => rfl
      | cons e rest =>
        have := entrySize_pos e
        simp only [listSize] at hsize
        omega
    subst hnil
    simp [findRouteFiles, scanChildren, selfRoutes, lastRouteFile] at hmem
  | succ N ih =>
    intro es d p r hsize hmem
    rcases List.mem_append.mp hmem with h | h
    · obtain ⟨e, he, hr⟩ := (mem_scanChildren es d p r).mp h
      cases e with
      | file n c => simp [scanEntry] at hr
      | dir n sub =>
        rw [scanEntry] at hr
        by_cases hskip : skipDir n
        · rw [if_pos hskip] at hr
          simp at hr
        · rw [if_neg hskip] at hr
          have hr' : r ∈ findRouteFiles sub (d ++ [n]) (stepPath p n) := hr
          have hlt : listSize sub ≤ N := by
            have := listSize_lt_of_mem he
            omega
          obtain ⟨es', d', p', hre, hsr⟩ := ih sub (d ++ [n]) (stepPath p n) r hlt hr'
          exact ⟨es', d', p',
            Reach.step n sub he ((Bool.not_eq_true _).mp hskip) hre, hsr⟩
    · exact ⟨es, d, p, Reach.refl es d p, h⟩

theorem scan_to_reach {es : List FsEntry} {d : List String} {p : String} {r : RouteEntry}
    (h : r ∈ findRouteFiles es d p) :
    ∃ es' d' p', Reach es d p es' d' p' ∧ r ∈ selfRoutes es' d' p' :=
  scan_to_reach_aux (listSize es) es d p r (Nat.le_refl _) h

theorem reach_to_scan :
    ∀ {es : List FsEntry} {d : List String} {p : String}
      {es' : List FsEntry} {d' : List String} {p' : String},
      Reach es d p es' d' p' → ∀ r, r ∈ selfRoutes es' d' p' → r ∈ findRouteFiles es d p := by
  intro es d p es' d' p' h
  induction h with
  | refl es d p =>
    intro r hr
    exact List.mem_append.mpr (Or.inr hr)
  | step n sub hmem hskip _ ih =>
    intro r hr
    have h1 := ih r hr
    refine List.mem_append.mpr (Or.inl ?_)
    refine (mem_scanChildren _ _ _ _).mpr ⟨FsEntry.dir n sub, hmem, ?_⟩
    rw [scanEntry, if_neg (by simp [hskip])]
    exact h1

/-- C5: confirmed.  For every directory the scanner can reach (the `Reach`
relation: descending only into non-skipped child directories, groups keeping
the logical path), a Route node whose handler file lies in that directory
appears in the scan output if and only if the directory resolves a route
file (`route.js|ts|jsx|tsx`, last such entry) whose content yields at least
one recognized method Handler. -/
theorem claim_C5_route_iff_nonempty_handlers
    (es : List FsEntry) (d q : List String) (p : String) :
    (∃ r, r ∈ findRouteFiles es d p ∧ r.filePath.dropLast = q) ↔
    (∃ es' p', Reach es d p es' q p' ∧
      ∃ n c, lastRouteFile es' = some (n, c) ∧ scanRouteHandlerMethods c ≠ []) := by
  constructor
  · rintro ⟨r, hr, hq⟩
    obtain ⟨es', d', p', hre, hsr⟩ := scan_to_reach hr
    obtain ⟨n, c, hlast, hne, hreq⟩ := (mem_selfRoutes es' d' p' r).mp hsr
    have hd' : d' = q := by
      rw [← hq, hreq]
      exact (List.dropLast_concat).symm
    subst hd'
    exact ⟨es', p', hre, n, c, hlast, hne⟩
  · rintro ⟨es', p', hre, n, c, hlast, hne⟩
    refine ⟨⟨displayPath p', q ++ [n], scanRouteHandlerMethods c, routeTypeOf (displayPath p')⟩,
      reach_to_scan hre _ ?_, List.dropLast_concat⟩
    exact (mem_selfRoutes es' q p' _).mpr ⟨n, c, hlast, hne, rfl⟩

theorem reach_dir_segments :
    ∀ {es : List FsEntry} {d : List String} {p : String}
      {es' : List FsEntry} {d' : List String} {p' : String},
      Reach es d p es' d' p' →
      ∃ rest, d' = d ++ rest ∧ ∀ s ∈ rest, skipDir s = false := by
  intro es d p es' d' p' h
  induction h with
  | refl es d p => exact ⟨[], by simp⟩
  | step n sub hmem hskip _ ih =>
    obtain ⟨rest, hrest, hall⟩ := ih
    refine ⟨n :: rest, by simp [hrest], ?_⟩
    intro s hs
    rcases List.mem_cons.mp hs with heq | hmem'
    · subst heq; exact hskip
    · exact hall s hmem'

/-- C6: confirmed.  A handler file lying anywhere below a `_`-prefixed
directory (its directory chain contains a private segment, at any depth)
never yields a Route in the scan of the routing root: the scanner's skip
condition rules out every private segment on every reached directory chain. -/
theorem claim_C6_private_segments_excluded
    (es : List FsEntry) (fp : List String)
    (hpriv : ∃ s, s ∈ fp.dropLast ∧ "_".data.isPrefixOf s.data = true) :
    ∀ r, r ∈ findRouteFiles es [] "" → r.filePath ≠ fp := by
  intro r hr heq
  obtain ⟨es', d', p', hre, hsr⟩ := scan_to_reach hr
  obtain ⟨n, c, _, _, hreq⟩ := (mem_selfRoutes es' d' p' r).mp hsr
  obtain ⟨rest, hrest, hall⟩ := reach_dir_segments hre
  obtain ⟨s, hs, hsp⟩ := hpriv
  have hfp : fp.dropLast = d' := by
    rw [← heq, hreq]
    exact List.dropLast_concat
  rw [hfp, hrest] at hs
  have := hall s (by simpa using hs)
  rw [skipDir] at this
  simp only [Bool.or_eq_false_iff] at this
  rw [this.2] at hsp
  exact absurd hsp (by simp)

/-- Witness for C6: in a tree with a route file below `_private` and a real
route at `api`, the scanned Route (there is exactly one, at `api`) is not the
private handler file. -/
theorem claim_C6_private_segments_excluded_witness :
    RouteEntry.filePath
        ⟨"api", ["api", "route.ts"], [("GET", 0)], "static"⟩ ≠ ["_private", "x", "route.ts"] :=
  claim_C6_private_segments_excluded
    [FsEntry.dir "_private"
      [FsEntry.dir "x" [FsEntry.file "route.ts" "export const GET = (r) => r;"]],
     FsEntry.dir "api" [FsEntry.file "route.ts" "export const GET = (r) => r;"]]
    ["_private", "x", "route.ts"]
    (by decide)
    ⟨"api", ["api", "route.ts"], [("GET", 0)], "static"⟩
    (by decide)

theorem wfList_mem :
    ∀ {es : List FsEntry} {e : FsEntry}, wfList es = true → e ∈ es → wfEntry e = true := by
  intro es
  induction es with
  | nil => intro e _ hm; simp at hm
  | cons e' rest ih =>
    intro e hwf hm
    rw [wfList, Bool.and_eq_true] at hwf
    rcases List.mem_cons.mp hm with heq | hm'
    · subst heq; exact hwf.1
    · exact ih hwf.2 hm'

theorem getLast?_mem_aux : ∀ (l : List Char) (a : Char), l.getLast? = some a → a ∈ l := by
  intro l
  induction l with
  | nil => intro a h; simp at h
  | cons c cs ih =>
    intro a h
    cases cs with
    | nil =>
      simp only [List.getLast?_singleton] at h
      injection h with h
      simp [h]
    | cons c2 cs2 =>
      rw [List.getLast?_cons_cons] at h
      exact List.mem_cons_of_mem _ (ih a h)

theorem joinPath_concat (s : String) (rest : List String) (n : String) :
    joinPath ((s :: rest) ++ [n]) = joinPath (s :: rest) ++ "/" ++ n := by
  simp [joinPath, List.foldl_append]

theorem foldl_slash_last :
    ∀ (rest : List String) (acc : String),
      acc.data ≠ [] → acc.data.getLast? ≠ some '/' →
      (∀ n ∈ rest, n.data ≠ [] ∧ '/' ∉ n.data) →
      (rest.foldl (fun a n => a ++ "/" ++ n) acc).data ≠ [] ∧
      (rest.foldl (fun a n => a ++ "/" ++ n) acc).data.getLast? ≠ some '/' := by
  intro rest
  induction rest with
  | nil => intro acc h1 h2 _; exact ⟨h1, h2⟩
  | cons n rest' ih =>
    intro acc _ _ hall
    have hn := hall n (List.mem_cons_self n rest')
    have hdata : (acc ++ "/" ++ n).data = (acc.data ++ ['/']) ++ n.data := by
      rw [String.data_append, String.data_append]
    refine ih (acc ++ "/" ++ n) ?_ ?_ (fun m hm => hall m (List.mem_cons_of_mem _ hm))
    · rw [hdata]
      simp [hn.1]
    · rw [hdata, List.getLast?_append_of_ne_nil _ hn.1]
      intro hctr
      exact hn.2 (getLast?_mem_aux _ _ hctr)

theorem joinPath_good (segs : List String) (hne : segs ≠ [])
    (hall : ∀ s ∈ segs, s.data ≠ [] ∧ '/' ∉ s.data) :
    (joinPath segs).data ≠ [] ∧ hasTrailingSlash (joinPath segs) = false := by
  cases segs with
  | nil => contradiction
  | cons s rest =>
    have hs := hall s (List.mem_cons_self s rest)
    have h := foldl_slash_last rest s hs.1
      (fun hctr => hs.2 (getLast?_mem_aux _ _ hctr))
      (fun m hm => hall m (List.mem_cons_of_mem _ hm))
    refine ⟨h.1, ?_⟩
    simp only [hasTrailingSlash, joinPath]
    simpa using h.2

theorem pathInv_extendPath (p n : String) (hp : PathInv p)
    (hn1 : n.data ≠ []) (hn2 : '/' ∉ n.data) (hn3 : isGroup n = false) :
    PathInv (extendPath p n) := by
  rcases hp with rfl | ⟨segs, hne, hall, rfl⟩
  · right
    refine ⟨[n], by simp, ?_, ?_⟩
    · intro s hs
      rw [List.mem_singleton] at hs
      subst hs
      exact ⟨hn1, hn2, hn3⟩
    · simp [extendPath, joinPath]
  · right
    have hgood := joinPath_good segs hne (fun s hs => ⟨(hall s hs).1, (hall s hs).2.1⟩)
    have hpne : joinPath segs ≠ "" := by
      intro hctr
      apply hgood.1
      rw [hctr]
    refine ⟨segs ++ [n], by simp, ?_, ?_⟩
    · intro s hs
      rcases List.mem_append.mp hs with hs' | hs'
      · exact hall s hs'
      · rw [List.mem_singleton] at hs'
        subst hs'
        exact ⟨hn1, hn2, hn3⟩
    · rw [extendPath, if_pos ⟨hpne, hgood.2⟩]
      cases segs with
      | nil => contradiction
      | cons s0 r0 => exact (joinPath_concat s0 r0 n).symm

theorem reach_pathInv :
    ∀ {es : List FsEntry} {d : List String} {p : String}
      {es' : List FsEntry} {d' : List String} {p' : String},
      Reach es d p es' d' p' → wfList es = true → PathInv p →
      wfList es' = true ∧ PathInv p' := by
  intro es d p es' d' p' h
  induction h with
  | refl es d p => exact fun hwf hp => ⟨hwf, hp⟩
  | step n sub hmem _ _ ih =>
    intro hwf hp
    have hwe := wfList_mem hwf hmem
    rw [wfEntry, Bool.and_eq_true, Bool.and_eq_true] at hwe
    obtain ⟨⟨h1, h2⟩, h3⟩ := hwe
    have hn1 : n.data ≠ [] := by simpa using h1
    have hn2 : '/' ∉ n.data := by simpa using h2
    refine ih h3 ?_
    by_cases hg : isGroup n = true
    · simpa [stepPath, hg] using hp
    · have hg' : isGroup n = false := by simpa using hg
      simpa [stepPath, hg'] using pathInv_extendPath _ n hp hn1 hn2 hg'

/-- C7: confirmed.  In a wellformed tree (directory names nonempty and
separator-free), the logical path of every Route produced at the routing
root is either the root path `/` or a `/`-join of segment names none of
which is a group (`(...)`-wrapped) name: group directories are recursed into
but contribute no segment. -/
theorem claim_C7_group_segments_never_in_path
    (es : List FsEntry) (hwf : wfList es = true) :
    ∀ r, r ∈ findRouteFiles es [] "" →
      r.routePath = "/" ∨
      ∃ segs, segs ≠ [] ∧ (∀ s ∈ segs, isGroup s = false) ∧ r.routePath = joinPath segs := by
  intro r hr
  obtain ⟨es', d', p', hre, hsr⟩ := scan_to_reach hr
  obtain ⟨n, c, _, _, hreq⟩ := (mem_selfRoutes es' d' p' r).mp hsr
  have hroute : r.routePath = displayPath p' := by rw [hreq]
  have hinv := (reach_pathInv hre hwf (Or.inl rfl)).2
  rcases hinv with hb | ⟨segs, hne, hall, hjp⟩
  · left
    rw [hroute, hb]
    rfl
  · right
    have hgood := joinPath_good segs hne (fun s hs => ⟨(hall s hs).1, (hall s hs).2.1⟩)
    have hpne : joinPath segs ≠ "" := by
      intro hctr
      apply hgood.1
      rw [hctr]
    refine ⟨segs, hne, fun s hs => (hall s hs).2.2, ?_⟩
    rw [hroute, hjp, displayPath, if_neg hpne]

/-- Witness for C7: in a wellformed tree whose route file sits below the
group directory `(grp)`, the produced Route's logical path is `api` — the
join of the single non-group segment, with no `(grp)` segment. -/
theorem claim_C7_group_segments_never_in_path_witness :
    RouteEntry.routePath
        ⟨"api", ["(grp)", "api", "route.ts"], [("GET", 0)], "static"⟩ = "/" ∨
      ∃ segs, segs ≠ [] ∧ (∀ s ∈ segs, isGroup s = false) ∧
        RouteEntry.routePath
          ⟨"api", ["(grp)", "api", "route.ts"], [("GET", 0)], "static"⟩ = joinPath segs :=
  claim_C7_group_segments_never_in_path
    [FsEntry.dir "(grp)"
      [FsEntry.dir "api" [FsEntry.file "route.ts" "export const GET = (r) => r;"]]]
    (by decide)
    ⟨"api", ["(grp)", "api", "route.ts"], [("GET", 0)], "static"⟩
    (by decide)
